import Mathlib

/-!
Shallow embedding of the causal-ML estimation pipeline in `causaltreat.py`
(functions `partition`, `ml_proxy`, `blp`, `quantile_grid`, `gates`, `combine`).

Modelling conventions:
* float scalars are modelled as rationals, numpy 1-d arrays as `List ℚ`,
  2-d arrays as `List (List ℚ)` (row major);
* the two random draws of `partition` and the uniform jitter of `gates` are
  nondeterministic; each is passed in as an explicit parameter, with the
  contract numpy guarantees for it stated as a predicate (`valid_choice`);
* the external predictive model (duck typed: fit/predict) is a state-passing
  record `MLModel`; the external weighted-least-squares solver is an abstract
  function from design matrix, response and weights to a coefficient vector;
* fallible numpy operations return `Except String`.
-/

/-- Model of `np.where(d == v)[0].flatten()`: the increasing list of indices
of `d` holding value `v` (used at causaltreat.py lines 21-22). -/
def whereEq (d : List ℚ) (v : ℚ) : List ℕ :=
  (List.range d.length).filter (fun i => d.getD i 0 == v)

/-- Model of the legacy numpy call `np.random.choice(a=a, size=size, replace=False)`.
The draw itself is nondeterministic and is supplied from outside as `c`
(see `valid_choice` for the contract numpy guarantees for the draw).
`numpy.random.RandomState.choice` validates its arguments before drawing:
it raises `ValueError` when the population `a` is empty (even when `size` is 0),
when `size` is negative, and when `size` exceeds the population size. -/
def np_random_choice (a : List ℕ) (size : ℤ) (c : List ℕ) : Except String (List ℕ) :=
  if a.length = 0 then .error "a must be non-empty"
  else if size < 0 then .error "negative dimensions are not allowed"
  else if (a.length : ℤ) < size then
    .error "Cannot take a larger sample than population when replace is False"
  else .ok c

/-- Contract of a draw produced by `np.random.choice(a, size, replace=False)`:
`size` many pairwise distinct elements of the population `a`. -/
def valid_choice (a : List ℕ) (size : ℤ) (c : List ℕ) : Prop :=
  (c.length : ℤ) = size ∧ c.Nodup ∧ ∀ i ∈ c, i ∈ a

/-- Model of the numpy fancy assignment `s[idx] = v` on a 1-d string array
(causaltreat.py line 35); all indices used there are in range. -/
def npAssign (s : List String) (idx : List ℕ) (v : String) : List String :=
  idx.foldl (fun acc i => acc.set i v) s

/-- `partition(d, prob_m)` (causaltreat.py lines 5-37): stratified assignment of
observations to the main sample "m" and the auxiliary sample "a".  `cT` and `cC`
are the two nondeterministic draws made by the two `np.random.choice` calls. -/
def partition (d : List ℚ) (prob_m : ℚ) (cT cC : List ℕ) : Except String (List String) :=
  match np_random_choice (whereEq d 1) ⌊prob_m * ((whereEq d 1).length : ℚ)⌋ cT with
  | .error e => .error e
  | .ok rowid_treat_main =>
    match np_random_choice (whereEq d 0) ⌊prob_m * ((whereEq d 0).length : ℚ)⌋ cC with
    | .error e => .error e
    | .ok rowid_ctrl_main =>
      .ok (npAssign (List.replicate d.length "a") (rowid_treat_main ++ rowid_ctrl_main) "m")

/-- The external predictive model: anything exposing `fit` and `predict`.
`fit` consumes the current learned state and produces a fresh one (sklearn
models overwrite their state on each fit); `predictRow` is the per-row
prediction given the current state, applied rowwise by `npPredict`. -/
structure MLModel (S : Type) where
  fit : S → List (List ℚ) → List ℚ → S
  predictRow : S → List ℚ → ℚ

/-- `model.predict(x)`: one prediction per row of `x`. -/
def npPredict {S : Type} (M : MLModel S) (s : S) (x : List (List ℚ)) : List ℚ :=
  x.map (M.predictRow s)

/-- Boolean-mask row selection `v[mask]` of numpy. -/
def maskSelect {α : Type} (mask : List Bool) (v : List α) : List α :=
  (List.zip mask v).filterMap (fun p => if p.1 then some p.2 else none)

/-- `ml_proxy(model, x, y, d, sample)` (causaltreat.py lines 40-72).
Returns `((b_hat, s_hat), final model state)`; the final state is carried so
that the mutation of the shared model instance stays observable. -/
def ml_proxy {S : Type} (M : MLModel S) (s0 : S) (x : List (List ℚ))
    (y d : List ℚ) (sample : List String) : (List ℚ × List ℚ) × S :=
  let id_ctrl_a := List.zipWith (fun l di => l == "a" && di == 0) sample d
  let s1 := M.fit s0 (maskSelect id_ctrl_a x) (maskSelect id_ctrl_a y)
  let pred_ctrl := npPredict M s1 x
  let id_treat_a := List.zipWith (fun l di => l == "a" && di == 1) sample d
  let s2 := M.fit s1 (maskSelect id_treat_a x)
    (List.zipWith (· - ·) (maskSelect id_treat_a y) (maskSelect id_treat_a pred_ctrl))
  let pred_treat := npPredict M s2 x
  ((pred_ctrl, pred_treat), s2)

/-- `np.mean` of a 1-d array. -/
def np_mean (v : List ℚ) : ℚ := v.sum / (v.length : ℚ)

/-- The weight vector `(prop * (1 - prop)) ** (-1)` computed at
causaltreat.py lines 101 and 185 (commented `# weights` in the source). -/
def w_reg_src (prop : List ℚ) : List ℚ :=
  prop.map (fun p => (p * (1 - p))⁻¹)

/-- `np.column_stack` of equally long 1-d arrays: row `i` collects the
`i`-th entry of every column. -/
def np_column_stack (cols : List (List ℚ)) : List (List ℚ) :=
  (List.range (cols.headD []).length).map (fun i => cols.map (fun c => c.getD i 0))

/-- One invocation of the external solver `statsmodels WLS(endog=..., exog=..., ...)`.
`weightsUsed` records the weight vector the solver actually applies.  The
keyword parameter of `WLS` for weights is named `weights` and defaults to unit
weights; any other keyword (such as `w`) falls into `**kwargs`, is attached to
the model object as an extra data attribute and is never consulted by the fit.
Such attached extras are recorded in `extraKwargs`. -/
structure WLSCall where
  endog : List ℚ
  exog : List (List ℚ)
  weightsUsed : List ℚ
  extraKwargs : List (String × List ℚ)

/-- Column labels of the BLP design matrix (causaltreat.py line 110). -/
def blp_labels : List String := ["const.", "b0", "ate", "het"]

/-- The solver invocation `WLS(endog=y_reg, exog=x_reg, w=w_reg)` built by
`blp` (causaltreat.py lines 99-113).  Because `w` is not the weight parameter
of statsmodels `WLS` (that parameter is `weights`), the weights actually used
by the fit are the default unit weights, and the computed vector `w_reg`
is merely attached to the model object unused. -/
def blpCall (y d prop b_hat s_hat : List ℚ) : WLSCall :=
  let x_reg := np_column_stack
    [List.replicate y.length 1,
     b_hat,
     List.zipWith (· - ·) d prop,
     List.zipWith (· * ·) (List.zipWith (· - ·) d prop)
       (s_hat.map (fun s => s - np_mean s_hat))]
  { endog := y
    exog := x_reg
    weightsUsed := List.replicate y.length 1
    extraKwargs := [("w", w_reg_src prop)] }

/-- `blp(y, d, prop, b_hat, s_hat)` (causaltreat.py lines 75-122), abstracting
the numerical solver as `solver exog endog weights`.  Returns the pair
`(params[labels.index("ate")], params[labels.index("het")])`. -/
def blp (solver : List (List ℚ) → List ℚ → List ℚ → List ℚ)
    (y d prop b_hat s_hat : List ℚ) : ℚ × ℚ :=
  let c := blpCall y d prop b_hat s_hat
  let params := solver c.exog c.endog c.weightsUsed
  (params.getD (blp_labels.indexOf "ate") 0, params.getD (blp_labels.indexOf "het") 0)

/-- `np.linspace(start, stop, num=num, endpoint=False)`. -/
def np_linspace (start stop : ℚ) (num : ℕ) : List ℚ :=
  (List.range num).map (fun (i : ℕ) => start + (i : ℚ) * ((stop - start) / (num : ℚ)))

/-- Linear interpolation into a sorted vector `s` of length `n` at fractional
position `h`: the value between `s[⌊h⌋]` and the next entry, exactly as
`np.percentile` computes it on a non-empty array. -/
def interpSorted (s : List ℚ) (n : ℕ) (h : ℚ) : ℚ :=
  s.getD (⌊h⌋).toNat 0 +
    (h - (⌊h⌋ : ℚ)) * (s.getD (min ((⌊h⌋).toNat + 1) (n - 1)) 0 - s.getD (⌊h⌋).toNat 0)

/-- The value `np.percentile(a, p)` produces on a non-empty array `a` with the
default linear interpolation: with `a` sorted into `s` of length `n`, the
interpolation into `s` at position `h = p/100 * (n-1)`. -/
def percentileVal (a : List ℚ) (p : ℚ) : ℚ :=
  interpSorted (List.insertionSort (· ≤ ·) a) a.length
    (p / 100 * ((a.length : ℚ) - 1))

/-- Model of `np.percentile(a, p)` at one probability `p`: on an empty input
array the take of the interpolation endpoints raises `IndexError` (numpy
forbids a non-empty take from an empty axis); otherwise it returns the
linearly interpolated value. -/
def np_percentile (a : List ℚ) (p : ℚ) : Except String ℚ :=
  if a.isEmpty then .error "cannot do a non-empty take from an empty axes."
  else .ok (percentileVal a p)

/-- `np.percentile(a, q)` with a vector of probabilities `q`, as called at
causaltreat.py line 141: one percentile per probability; the empty-array
`IndexError` fires exactly when at least one probability is requested (an
empty take from the empty axis is allowed, so an empty `q` succeeds). -/
def npPercentileList (a : List ℚ) : List ℚ → Except String (List ℚ)
  | [] => .ok []
  | p :: ps =>
    match np_percentile a p with
    | .error e => .error e
    | .ok v =>
      match npPercentileList a ps with
      | .error e => .error e
      | .ok vs => .ok (v :: vs)

/-- The bin edges `quantile_grid` computes on its non-error path: the
percentile values of `x` at the `q` linspace probabilities. -/
def qgEdges (x : List ℚ) (q : ℕ) : List ℚ :=
  (np_linspace 0 100 q).map (percentileVal x)

/-- The bin indices `quantile_grid` computes on its non-error path: for each
score, the number of edges `≤` the score, minus one. -/
def qgIndices (x : List ℚ) (q : ℕ) : List ℤ :=
  x.map (fun v => ((qgEdges x q).countP (fun e => decide (e ≤ v)) : ℤ) - 1)

/-- `quantile_grid(x, q)` (causaltreat.py lines 125-145).  The percentile
call at line 141 propagates the numpy `IndexError` for an empty score vector
(whenever q ≥ 1).  `np.digitize(x, bins, right=False)` on nondecreasing
`bins` is `searchsorted(bins, v)` with the right insertion side, i.e. the
number of bins `≤ v`; the `np.Inf` appended at line 143 exceeds every finite
score, so after the `- 1` the bin index of `v` is the number of finite edges
`≤ v`, minus one. -/
def quantile_grid (x : List ℚ) (q : ℕ) :
    Except String (List ℤ × List ℚ × List ℚ) :=
  let bin_pct := np_linspace 0 100 q
  match npPercentileList x bin_pct with
  | .error e => .error e
  | .ok bin_edges =>
    let bin_indices :=
      x.map (fun v => (bin_edges.countP (fun e => decide (e ≤ v)) : ℤ) - 1)
    .ok (bin_indices, bin_edges, bin_pct)

/-- The fancy assignment `z = np.zeros((n, q)); z[np.arange(n), idx] = 1`
(causaltreat.py lines 178-179).  numpy validates every index against the
second axis: an index outside `[-q, q)` raises `IndexError`; a negative
in-range index wraps around (`i % q`). -/
def np_onehot (n q : ℕ) (idx : List ℤ) : Except String (List (List ℚ)) :=
  if idx.all (fun t => decide (-(q:ℤ) ≤ t) && decide (t < (q:ℤ))) then
    .ok ((List.range n).map (fun (r : ℕ) =>
      (List.range q).map (fun (c : ℕ) =>
        if (idx.getD r 0) % (q:ℤ) = (c:ℤ) then 1 else 0)))
  else .error "index out of bounds for axis 1"

/-- `np.sum(m, axis=0)` for an `n × cols` matrix: the vector of column sums. -/
def np_sum_axis0 (m : List (List ℚ)) (cols : ℕ) : List ℚ :=
  (List.range cols).map (fun j => (m.map (fun r => r.getD j 0)).sum)

/-- Result dictionary of `gates` (causaltreat.py lines 205-210). -/
structure GatesResult where
  coef_baseline : List ℚ
  coef_treatment : List ℚ
  bin_values : List ℚ
  bin_count : List ℚ

/-- The solver invocation built by `gates` (causaltreat.py lines 172-199),
together with the bin edges and the one-hot matrix it computes on the way.
`u` is the vector of uniform draws of the tie-breaking jitter at line 174
(the float literal 1e-16 is modelled by the rational 10^-16).
`np.column_stack((A, B))` on two 2-d blocks concatenates them row by row, and
`s_onehot * np.reshape(d - prop, (-1, 1))` scales row `i` of the one-hot
matrix by `(d - prop)[i]`.  As in `blpCall`, the weight vector is passed via
the unrecognized keyword `w=`, so the weights used by the solver are the
default unit weights.  `gatesBuild` is the part after the quantile grouping
(causaltreat.py lines 177-199), `gatesCall` the whole of lines 172-199. -/
def gatesBuild (y d prop : List ℚ) (n : ℕ) (bin_indices : List ℤ)
    (bin_edges : List ℚ) :
    Except String (WLSCall × List ℚ × List (List ℚ)) :=
  match np_onehot n bin_edges.length bin_indices with
  | .error e => .error e
  | .ok s_onehot =>
    let dp := List.zipWith (· - ·) d prop
    let x_reg := List.zipWith (fun row w => row ++ row.map (fun g => g * w)) s_onehot dp
    .ok ({ endog := y
           exog := x_reg
           weightsUsed := List.replicate y.length 1
           extraKwargs := [("w", w_reg_src prop)] },
         bin_edges, s_onehot)

def gatesCall (y d prop s_hat : List ℚ) (q : ℕ) (u : List ℚ) :
    Except String (WLSCall × List ℚ × List (List ℚ)) :=
  let x := List.zipWith (fun s ui => s + 1 / 10 ^ 16 * ui) s_hat u
  match quantile_grid x q with
  | .error e => .error e
  | .ok (bin_indices, bin_edges, _bin_pct) =>
    gatesBuild y d prop s_hat.length bin_indices bin_edges

/-- `gates(y, d, prop, s_hat, q)` (causaltreat.py lines 148-210).  The labels
built at lines 189-197 have length `q` each, so the coefficient vector is
split after the first `len(bin_edges)` entries. -/
def gates (solver : List (List ℚ) → List ℚ → List ℚ → List ℚ)
    (y d prop s_hat : List ℚ) (q : ℕ) (u : List ℚ) : Except String GatesResult :=
  match gatesCall y d prop s_hat q u with
  | .error e => .error e
  | .ok (call, bin_edges, s_onehot) =>
    let params := solver call.exog call.endog call.weightsUsed
    .ok { coef_baseline := params.take bin_edges.length
          coef_treatment := params.drop bin_edges.length
          bin_values := bin_edges
          bin_count := np_sum_axis0 s_onehot bin_edges.length }

/-- The value returned by `combine`: a BLP pair or a GATES dictionary. -/
inductive CombineResult where
  | blpRes : ℚ × ℚ → CombineResult
  | gatesRes : GatesResult → CombineResult

/-- `combine(model, x, y, d, prop, second_stage, q, prob_m)`
(causaltreat.py lines 213-279).  Steps in source order: partition first
(line 250), then the two proxy fits (line 253), then the dispatch on
`second_stage` (lines 256-279) on the main-sample rows.  The final model
state is returned alongside, also on the error paths, because in Python the
mutation of the shared model instance persists when an exception is raised.
`cT`, `cC` are the draws of `partition`; `u` is the jitter drawn by `gates`. -/
def combine {S : Type} (M : MLModel S) (s0 : S)
    (solver : List (List ℚ) → List ℚ → List ℚ → List ℚ)
    (x : List (List ℚ)) (y d prop : List ℚ) (second_stage : String) (q : ℕ)
    (prob_m : ℚ) (cT cC : List ℕ) (u : List ℚ) :
    Except String CombineResult × S :=
  match partition d prob_m cT cC with
  | .error e => (.error e, s0)
  | .ok sample =>
    match ml_proxy M s0 x y d sample with
    | ((b_hat, s_hat), s2) =>
      let mask := sample.map (fun l => l == "m")
      if second_stage = "blp" then
        (.ok (.blpRes (blp solver (maskSelect mask y) (maskSelect mask d)
          (maskSelect mask prop) (maskSelect mask b_hat) (maskSelect mask s_hat))), s2)
      else if second_stage = "gates" then
        match gates solver (maskSelect mask y) (maskSelect mask d)
            (maskSelect mask prop) (maskSelect mask s_hat) q u with
        | .ok r => (.ok (.gatesRes r), s2)
        | .error e => (.error e, s2)
      else (.error "Argument second_stage must be \"blp\" or \"gates\"", s2)

/-- Whether an `Except` holds a value. -/
def exceptIsOk {ε α : Type} : Except ε α → Bool
  | .ok _ => true
  | .error _ => false

/-- A concrete conforming predictive model used in instantiations: fitting
stores the sum of the targets, predicting returns the stored value. -/
def sumModel : MLModel ℚ :=
  { fit := fun _ _ ys => ys.sum, predictRow := fun s _ => s }

/-- A concrete conforming predictive model whose state counts how often the
model has been fit; its predictions are constantly zero. -/
def countModel : MLModel ℕ :=
  { fit := fun s _ _ => s + 1, predictRow := fun _ _ => 0 }

/-- A degenerate conforming solver used in instantiations: it returns an
empty coefficient vector. -/
def zeroSolver : List (List ℚ) → List ℚ → List ℚ → List ℚ := fun _ _ _ => []

/-- Spec-side reading of the proxy-estimator row selection: the indices
`i < n` whose label is auxiliary and whose treatment value is `arm`. -/
def auxRows (n : ℕ) (sample : List String) (d : List ℚ) (arm : ℚ) : List ℕ :=
  (List.range n).filter (fun i => sample.getD i "" == "a" && d.getD i 0 == arm)

/-- Spec-side reading of `ml_proxy`, following the specification text: fit on
the rows where the label is auxiliary and D = 0 with target Y, predict on all
rows to get the baseline prediction; re-fit the same instance on the rows
where the label is auxiliary and D = 1 with target (Y minus the first-stage
prediction) restricted to those rows; predict on all rows; return the pair. -/
def ml_proxy_spec {S : Type} (M : MLModel S) (s0 : S) (x : List (List ℚ))
    (y d : List ℚ) (sample : List String) : (List ℚ × List ℚ) × S :=
  let n := y.length
  let rows0 := auxRows n sample d 0
  let s1 := M.fit s0 (rows0.map (fun i => x.getD i [])) (rows0.map (fun i => y.getD i 0))
  let pred_ctrl := npPredict M s1 x
  let rows1 := auxRows n sample d 1
  let resid := List.zipWith (· - ·) y pred_ctrl
  let s2 := M.fit s1 (rows1.map (fun i => x.getD i [])) (rows1.map (fun i => resid.getD i 0))
  let pred_treat := npPredict M s2 x
  ((pred_ctrl, pred_treat), s2)

/-- Spec-side reading of the quantile probabilities: the `q` equally spaced
left edges of the `q` equal-width subintervals of `[0, 100)`. -/
def spec_bin_pct (q : ℕ) : List ℚ :=
  (List.range q).map (fun (i : ℕ) => 100 * (i : ℚ) / (q : ℚ))

/- ------------------------------------------------------------------ -/
/- Helper lemmas                                                      -/
/- ------------------------------------------------------------------ -/

theorem getD_eq_get {α : Type} (l : List α) (d : α) (i : ℕ) (h : i < l.length) :
    l.getD i d = l.get ⟨i, h⟩ := by
  induction l generalizing i with
  | nil => simp at h
  | cons a t ih =>
    cases i with
    | zero => rfl
    | succ k => exact ih k (Nat.lt_of_succ_lt_succ h)

theorem getD_mem {α : Type} (l : List α) (d : α) (i : ℕ) (h : i < l.length) :
    l.getD i d ∈ l := by
  rw [getD_eq_get l d i h]
  exact l.get_mem i h

theorem getD_map_q (f : ℚ → ℤ) (l : List ℚ) (i : ℕ) (h : i < l.length) (d : ℚ) :
    (l.map f).getD i (f d) = f (l.getD i d) := by
  induction l generalizing i with
  | nil => simp at h
  | cons a t ih =>
    cases i with
    | zero => rfl
    | succ k => exact ih k (Nat.lt_of_succ_lt_succ h)

theorem getD_replicate {α : Type} (n i : ℕ) (v d : α) (h : i < n) :
    (List.replicate n v).getD i d = v := by
  induction n generalizing i with
  | zero => omega
  | succ m ih =>
    cases i with
    | zero => rfl
    | succ k =>
      rw [List.replicate_succ, List.getD_cons_succ]
      exact ih k (by omega)

theorem sorted_getD_le {l : List ℚ} (hs : List.Sorted (· ≤ ·) l) {i j : ℕ}
    (hij : i ≤ j) (hj : j < l.length) (d : ℚ) : l.getD i d ≤ l.getD j d := by
  rcases Nat.eq_or_lt_of_le hij with rfl | hlt
  · exact le_refl _
  · rw [getD_eq_get l d i (lt_trans hlt hj), getD_eq_get l d j hj]
    exact List.pairwise_iff_get.mp hs ⟨i, lt_trans hlt hj⟩ ⟨j, hj⟩ hlt

theorem sorted_getD_lt {l : List ℚ} (hs : List.Sorted (· ≤ ·) l) (hnd : l.Nodup)
    {i j : ℕ} (hij : i < j) (hj : j < l.length) (d : ℚ) : l.getD i d < l.getD j d := by
  have hle := sorted_getD_le hs (Nat.le_of_lt hij) hj d
  rcases lt_or_eq_of_le hle with h | h
  · exact h
  · exfalso
    rw [getD_eq_get l d i (lt_trans hij hj), getD_eq_get l d j hj] at h
    have := (List.Nodup.get_inj_iff hnd).mp h
    simp only [Fin.mk.injEq] at this
    omega

theorem sorted_getD_zero_le {l : List ℚ} (hs : List.Sorted (· ≤ ·) l) {v : ℚ}
    (hv : v ∈ l) (d : ℚ) : l.getD 0 d ≤ v := by
  obtain ⟨⟨i, hi⟩, rfl⟩ := List.mem_iff_get.mp hv
  have h := sorted_getD_le hs (Nat.zero_le i) hi d
  rwa [getD_eq_get l d i hi] at h

theorem countP_sorted_getD_le {l : List ℚ} (hs : List.Sorted (· ≤ ·) l) (v : ℚ) :
    ∀ {j : ℕ}, j < l.countP (fun e => decide (e ≤ v)) → l.getD j 0 ≤ v := by
  induction l with
  | nil => intro j hj; rw [List.countP_nil] at hj; omega
  | cons a t ih =>
    obtain ⟨ha, ht⟩ := List.sorted_cons.mp hs
    intro j hj
    by_cases hav : a ≤ v
    · rw [List.countP_cons_of_pos _ _ (by simpa using hav)] at hj
      cases j with
      | zero => simpa using hav
      | succ k => exact ih ht (by omega)
    · have hzero : t.countP (fun e => decide (e ≤ v)) = 0 := by
        rw [List.countP_eq_zero]
        intro b hb
        simp only [decide_eq_true_eq]
        intro hbv
        exact hav (le_trans (ha b hb) hbv)
      rw [List.countP_cons_of_neg _ _ (by simpa using hav), hzero] at hj
      omega

theorem lt_countP_sorted {l : List ℚ} (hs : List.Sorted (· ≤ ·) l) (v : ℚ) :
    ∀ {j : ℕ}, j < l.length → l.getD j 0 ≤ v →
      j < l.countP (fun e => decide (e ≤ v)) := by
  induction l with
  | nil => intro j hj; simp at hj
  | cons a t ih =>
    obtain ⟨ha, ht⟩ := List.sorted_cons.mp hs
    intro j hj hle
    by_cases hav : a ≤ v
    · rw [List.countP_cons_of_pos _ _ (by simpa using hav)]
      cases j with
      | zero => omega
      | succ k =>
        have := ih ht (by simpa using hj) (by simpa using hle)
        omega
    · exfalso
      cases j with
      | zero => exact hav (by simpa using hle)
      | succ k =>
        have hk : k < t.length := by simpa using hj
        have : t.getD k 0 ∈ t := getD_mem t 0 k hk
        exact hav (le_trans (ha _ this) (by simpa using hle))

theorem getD_set {α : Type} (s : List α) (a i : ℕ) (w d : α) :
    (s.set a w).getD i d = if a = i ∧ i < s.length then w else s.getD i d := by
  induction s generalizing a i with
  | nil => simp
  | cons x xs ih =>
    cases a with
    | zero =>
      cases i with
      | zero => simp
      | succ k => simp
    | succ b =>
      cases i with
      | zero => simp
      | succ k =>
        simp only [List.set_cons_succ, List.getD_cons_succ, ih b k, List.length_cons]
        by_cases hbk : b = k ∧ k < xs.length
        · rw [if_pos hbk, if_pos ⟨by omega, by omega⟩]
        · rw [if_neg hbk, if_neg (by omega)]

theorem npAssign_length (s : List String) (idx : List ℕ) (v : String) :
    (npAssign s idx v).length = s.length := by
  induction idx generalizing s with
  | nil => rfl
  | cons a t ih =>
    show (npAssign (s.set a v) t v).length = s.length
    rw [ih, List.length_set]

theorem npAssign_getD (s : List String) (idx : List ℕ) (v d : String) (i : ℕ) :
    (npAssign s idx v).getD i d =
      if i ∈ idx ∧ i < s.length then v else s.getD i d := by
  induction idx generalizing s with
  | nil => simp [npAssign]
  | cons a t ih =>
    show (npAssign (s.set a v) t v).getD i d = _
    rw [ih, List.length_set, getD_set]
    by_cases hit : i ∈ t ∧ i < s.length
    · rw [if_pos hit, if_pos ⟨List.mem_cons_of_mem a hit.1, hit.2⟩]
    · rw [if_neg hit]
      by_cases hai : a = i ∧ i < s.length
      · rw [if_pos hai, if_pos ⟨by simp [← hai.1], hai.2⟩]
      · rw [if_neg hai, if_neg (by
          rintro ⟨hmem, hlen⟩
          rcases List.mem_cons.mp hmem with rfl | hmt
          · exact hai ⟨rfl, hlen⟩
          · exact hit ⟨hmt, hlen⟩)]

theorem length_filter_range_mem (c : List ℕ) (n : ℕ) (hnd : c.Nodup)
    (hsub : ∀ i ∈ c, i < n) :
    ((List.range n).filter (fun i => decide (i ∈ c))).length = c.length := by
  have hfnd : ((List.range n).filter (fun i => decide (i ∈ c))).Nodup :=
    List.Nodup.filter _ (List.nodup_range n)
  have hset : ((List.range n).filter (fun i => decide (i ∈ c))).toFinset = c.toFinset := by
    ext k
    simp only [List.mem_toFinset, List.mem_filter, List.mem_range, decide_eq_true_eq]
    exact ⟨fun h => h.2, fun h => ⟨hsub k h, h⟩⟩
  calc ((List.range n).filter (fun i => decide (i ∈ c))).length
      = ((List.range n).filter (fun i => decide (i ∈ c))).toFinset.card :=
        (List.toFinset_card_of_nodup hfnd).symm
    _ = c.toFinset.card := by rw [hset]
    _ = c.length := List.toFinset_card_of_nodup hnd

theorem mem_whereEq (d : List ℚ) (v : ℚ) (i : ℕ) :
    i ∈ whereEq d v ↔ i < d.length ∧ d.getD i 0 = v := by
  simp [whereEq, List.mem_filter, List.mem_range]

theorem whereEq_ne_nil (d : List ℚ) (v : ℚ) (hv : v ∈ d) : whereEq d v ≠ [] := by
  obtain ⟨⟨i, hi⟩, rfl⟩ := List.mem_iff_get.mp hv
  intro hnil
  have hmem : i ∈ whereEq d (d.get ⟨i, hi⟩) :=
    (mem_whereEq d _ i).mpr ⟨hi, getD_eq_get d 0 i hi⟩
  rw [hnil] at hmem
  simp at hmem

theorem np_random_choice_ok (a : List ℕ) (size : ℤ) (c : List ℕ)
    (hne : a ≠ []) (hs0 : 0 ≤ size) (hsle : size ≤ (a.length : ℤ)) :
    np_random_choice a size c = .ok c := by
  have hlen : a.length ≠ 0 := fun h => hne (List.length_eq_zero.mp h)
  unfold np_random_choice
  rw [if_neg hlen, if_neg (by omega), if_neg (by omega)]

theorem np_random_choice_ok_inv (a : List ℕ) (size : ℤ) (c r : List ℕ)
    (h : np_random_choice a size c = .ok r) : r = c := by
  unfold np_random_choice at h
  split at h
  · exact absurd h (by simp)
  · split at h
    · exact absurd h (by simp)
    · split at h
      · exact absurd h (by simp)
      · simpa using h.symm

theorem floor_size_nonneg (p : ℚ) (hp : 0 ≤ p) (n : ℕ) : 0 ≤ ⌊p * (n : ℚ)⌋ :=
  Int.floor_nonneg.mpr (mul_nonneg hp (Nat.cast_nonneg n))

theorem floor_size_le (p : ℚ) (hp1 : p ≤ 1) (n : ℕ) : ⌊p * (n : ℚ)⌋ ≤ (n : ℤ) := by
  have hmul : p * (n : ℚ) ≤ (n : ℚ) := by
    have hn : (0:ℚ) ≤ (n : ℚ) := Nat.cast_nonneg n
    nlinarith
  calc ⌊p * (n : ℚ)⌋ ≤ ⌊(n : ℚ)⌋ := Int.floor_le_floor hmul
    _ = (n : ℤ) := Int.floor_natCast n

theorem partition_ok (d : List ℚ) (prob_m : ℚ) (cT cC : List ℕ)
    (h1 : (1:ℚ) ∈ d) (h0 : (0:ℚ) ∈ d) (hp0 : 0 ≤ prob_m) (hp1 : prob_m ≤ 1) :
    partition d prob_m cT cC =
      .ok (npAssign (List.replicate d.length "a") (cT ++ cC) "m") := by
  unfold partition
  rw [np_random_choice_ok _ _ _ (whereEq_ne_nil d 1 h1)
      (floor_size_nonneg prob_m hp0 _) (floor_size_le prob_m hp1 _),
    np_random_choice_ok _ _ _ (whereEq_ne_nil d 0 h0)
      (floor_size_nonneg prob_m hp0 _) (floor_size_le prob_m hp1 _)]

theorem count_main_arm (d : List ℚ) (main c : List ℕ) (v : ℚ)
    (hnd : c.Nodup)
    (hcm : ∀ i ∈ c, i ∈ main)
    (hcv : ∀ i ∈ c, i < d.length ∧ d.getD i 0 = v)
    (hmv : ∀ i ∈ main, i ∈ c ∨ d.getD i 0 ≠ v) :
    ((List.range d.length).filter (fun i =>
        (npAssign (List.replicate d.length "a") main "m").getD i "" == "m" &&
          d.getD i 0 == v)).length = c.length := by
  have hcongr : ∀ i ∈ List.range d.length,
      ((npAssign (List.replicate d.length "a") main "m").getD i "" == "m" &&
        d.getD i 0 == v) = decide (i ∈ c) := by
    intro i hi
    rw [List.mem_range] at hi
    rw [npAssign_getD, List.length_replicate]
    by_cases hic : i ∈ c
    · rw [if_pos ⟨hcm i hic, hi⟩, (hcv i hic).2]
      simp [hic]
    · by_cases him : i ∈ main
      · rcases hmv i him with h | h
        · exact absurd h hic
        · rw [if_pos ⟨him, hi⟩, beq_eq_false_iff_ne.mpr h]
          simp [hic]
      · rw [if_neg (by intro hc; exact him hc.1), getD_replicate _ _ _ _ hi,
          show ("a" == "m") = false from by decide, Bool.false_and]
        simp [hic]
  rw [List.filter_congr hcongr]
  exact length_filter_range_mem c d.length hnd (fun i hic => (hcv i hic).1)

theorem choice_covers (c T : List ℕ) (hcnd : c.Nodup) (hTnd : T.Nodup)
    (hsub : ∀ i ∈ c, i ∈ T) (hlen : T.length ≤ c.length) :
    ∀ i ∈ T, i ∈ c := by
  have hfin : c.toFinset = T.toFinset := by
    refine Finset.eq_of_subset_of_card_le ?_ ?_
    · intro k hk
      rw [List.mem_toFinset] at hk ⊢
      exact hsub k hk
    · rw [List.toFinset_card_of_nodup hcnd, List.toFinset_card_of_nodup hTnd]
      exact hlen
  intro i hiT
  have : i ∈ c.toFinset := by rw [hfin, List.mem_toFinset]; exact hiT
  rwa [List.mem_toFinset] at this

theorem partition_ok_inv (d : List ℚ) (prob_m : ℚ) (cT cC : List ℕ) (L : List String)
    (h : partition d prob_m cT cC = .ok L) :
    L = npAssign (List.replicate d.length "a") (cT ++ cC) "m" := by
  unfold partition at h
  split at h
  · exact absurd h (by simp)
  · rename_i rt hrt
    split at h
    · exact absurd h (by simp)
    · rename_i rc hrc
      rw [np_random_choice_ok_inv _ _ _ _ hrt, np_random_choice_ok_inv _ _ _ _ hrc] at h
      simpa using h.symm

/- ------------------------------------------------------------------ -/
/- Claim C1                                                           -/
/- ------------------------------------------------------------------ -/

/-- Claim C1, counterexample: D = [1] takes values in the set containing 0 and
1, and prob_m = 0 lies in [0,1], yet `partition` propagates the numpy error
raised by `np.random.choice` on the empty control population (legacy
`RandomState.choice` rejects an empty population even for a size-0 draw)
instead of returning a label vector. -/
theorem partition_claim_cex :
    partition [1] 0 [] [] = Except.error "a must be non-empty" := by
  have hT : whereEq [1] 1 = [0] := by simp [whereEq, List.range_succ]
  have hC : whereEq [1] 0 = [] := by simp [whereEq, List.range_succ]
  unfold partition
  rw [hT, hC, np_random_choice_ok [0] _ [] (by simp)
    (floor_size_nonneg 0 le_rfl _) (floor_size_le 0 (by norm_num) _)]
  rfl

/-- Claim C1 (amended): for every treatment vector D with values in the pair
set 0/1 that contains at least one treated and at least one control index,
and every prob_m in [0,1], `partition` returns a length-n label vector over
the labels m and a in which the number of main-labelled treated indices is
⌊prob_m·|treated|⌋, the number of main-labelled control indices is
⌊prob_m·|control|⌋, every drawn index is labelled m, and every index not
drawn into the main sample is labelled a, so main and auxiliary form a
disjoint cover of all indices. -/
theorem partition_stratified_counts (d : List ℚ) (prob_m : ℚ) (cT cC : List ℕ)
    (h1 : (1:ℚ) ∈ d) (h0 : (0:ℚ) ∈ d) (hp0 : 0 ≤ prob_m) (hp1 : prob_m ≤ 1)
    (hcT : valid_choice (whereEq d 1) ⌊prob_m * ((whereEq d 1).length : ℚ)⌋ cT)
    (hcC : valid_choice (whereEq d 0) ⌊prob_m * ((whereEq d 0).length : ℚ)⌋ cC) :
    ∃ L, partition d prob_m cT cC = Except.ok L ∧
      L.length = d.length ∧
      (∀ i < d.length, L.getD i "" = "m" ∨ L.getD i "" = "a") ∧
      (∀ i ∈ cT ++ cC, L.getD i "" = "m") ∧
      (∀ i < d.length, i ∉ cT ++ cC → L.getD i "" = "a") ∧
      ((List.range d.length).filter (fun i =>
          L.getD i "" == "m" && d.getD i 0 == 1)).length =
        (⌊prob_m * ((whereEq d 1).length : ℚ)⌋).toNat ∧
      ((List.range d.length).filter (fun i =>
          L.getD i "" == "m" && d.getD i 0 == 0)).length =
        (⌊prob_m * ((whereEq d 0).length : ℚ)⌋).toNat := by
  refine ⟨npAssign (List.replicate d.length "a") (cT ++ cC) "m",
    partition_ok d prob_m cT cC h1 h0 hp0 hp1, ?_, ?_, ?_, ?_, ?_, ?_⟩
  · rw [npAssign_length, List.length_replicate]
  · intro i hi
    rw [npAssign_getD, List.length_replicate]
    by_cases h : i ∈ cT ++ cC ∧ i < d.length
    · rw [if_pos h]; left; rfl
    · rw [if_neg h, getD_replicate _ _ _ _ hi]; right; rfl
  · intro i hi
    have hilt : i < d.length := by
      rcases List.mem_append.mp hi with h | h
      · exact ((mem_whereEq d 1 i).mp (hcT.2.2 i h)).1
      · exact ((mem_whereEq d 0 i).mp (hcC.2.2 i h)).1
    rw [npAssign_getD, List.length_replicate, if_pos ⟨hi, hilt⟩]
  · intro i hi hnm
    rw [npAssign_getD, List.length_replicate, if_neg (fun hc => hnm hc.1),
      getD_replicate _ _ _ _ hi]
  · have hcnt := count_main_arm d (cT ++ cC) cT 1 hcT.2.1
      (fun i hi => List.mem_append_left _ hi)
      (fun i hi => (mem_whereEq d 1 i).mp (hcT.2.2 i hi))
      (fun i hi => by
        rcases List.mem_append.mp hi with h | h
        · exact Or.inl h
        · right
          rw [((mem_whereEq d 0 i).mp (hcC.2.2 i h)).2]
          norm_num)
    rw [hcnt]
    have hlen := hcT.1
    omega
  · have hcnt := count_main_arm d (cT ++ cC) cC 0 hcC.2.1
      (fun i hi => List.mem_append_right _ hi)
      (fun i hi => (mem_whereEq d 0 i).mp (hcC.2.2 i hi))
      (fun i hi => by
        rcases List.mem_append.mp hi with h | h
        · right
          rw [((mem_whereEq d 1 i).mp (hcT.2.2 i h)).2]
          norm_num
        · exact Or.inl h)
    rw [hcnt]
    have hlen := hcC.1
    omega

/-- Claim C1 witness: the amended partition theorem applied to D = [1, 0],
prob_m = 0 and the empty draws. -/
theorem partition_stratified_counts_witness :
    valid_choice (whereEq [1, 0] 1) ⌊(0:ℚ) * ((whereEq [1, 0] 1).length : ℚ)⌋ [] ∧
    valid_choice (whereEq [1, 0] 0) ⌊(0:ℚ) * ((whereEq [1, 0] 0).length : ℚ)⌋ [] ∧
    (∃ L, partition [1, 0] 0 [] [] = Except.ok L ∧
      L.length = ([1, 0] : List ℚ).length ∧
      (∀ i < ([1, 0] : List ℚ).length, L.getD i "" = "m" ∨ L.getD i "" = "a") ∧
      (∀ i ∈ ([] : List ℕ) ++ [], L.getD i "" = "m") ∧
      (∀ i < ([1, 0] : List ℚ).length, i ∉ ([] : List ℕ) ++ [] → L.getD i "" = "a") ∧
      ((List.range ([1, 0] : List ℚ).length).filter (fun i =>
          L.getD i "" == "m" && ([1, 0] : List ℚ).getD i 0 == 1)).length =
        (⌊(0:ℚ) * ((whereEq [1, 0] 1).length : ℚ)⌋).toNat ∧
      ((List.range ([1, 0] : List ℚ).length).filter (fun i =>
          L.getD i "" == "m" && ([1, 0] : List ℚ).getD i 0 == 0)).length =
        (⌊(0:ℚ) * ((whereEq [1, 0] 0).length : ℚ)⌋).toNat) := by
  have hvT : valid_choice (whereEq [1, 0] 1) ⌊(0:ℚ) * ((whereEq [1, 0] 1).length : ℚ)⌋ [] := by
    refine ⟨?_, List.nodup_nil, by simp⟩
    simp
  have hvC : valid_choice (whereEq [1, 0] 0) ⌊(0:ℚ) * ((whereEq [1, 0] 0).length : ℚ)⌋ [] := by
    refine ⟨?_, List.nodup_nil, by simp⟩
    simp
  exact ⟨hvT, hvC,
    partition_stratified_counts [1, 0] 0 [] [] (by simp) (by simp) le_rfl
      (by norm_num) hvT hvC⟩

/- ------------------------------------------------------------------ -/
/- Claim C10                                                          -/
/- ------------------------------------------------------------------ -/

/-- Claim C10: whenever `partition` returns a label vector, any observation
whose treatment value is neither 0 nor 1 is labelled auxiliary, because the
two main-sample draws range only over the indices with treatment value
exactly 1 or exactly 0. -/
theorem partition_nonbinary_always_aux (d : List ℚ) (prob_m : ℚ) (cT cC : List ℕ)
    (L : List String)
    (hsubT : ∀ j ∈ cT, j ∈ whereEq d 1) (hsubC : ∀ j ∈ cC, j ∈ whereEq d 0)
    (hok : partition d prob_m cT cC = .ok L)
    (i : ℕ) (hi : i < d.length) (hv0 : d.getD i 0 ≠ 0) (hv1 : d.getD i 0 ≠ 1) :
    L.getD i "" = "a" := by
  have hnm : ¬(i ∈ cT ++ cC ∧ i < (List.replicate d.length "a").length) := by
    rintro ⟨hmem, -⟩
    rcases List.mem_append.mp hmem with h | h
    · exact hv1 ((mem_whereEq d 1 i).mp (hsubT i h)).2
    · exact hv0 ((mem_whereEq d 0 i).mp (hsubC i h)).2
  rw [partition_ok_inv d prob_m cT cC L hok, npAssign_getD, if_neg hnm,
    getD_replicate _ _ _ _ hi]

/-- Claim C10 witness: the theorem applied to D = [1, 0, 2] (third value
outside the binary set), prob_m = 0 and the empty draws. -/
theorem partition_nonbinary_always_aux_witness :
    partition [1, 0, 2] 0 [] [] = Except.ok ["a", "a", "a"] ∧
    (["a", "a", "a"] : List String).getD 2 "" = "a" := by
  have hok : partition [1, 0, 2] 0 [] [] = Except.ok ["a", "a", "a"] := by
    rw [partition_ok [1, 0, 2] 0 [] [] (by simp) (by simp) le_rfl (by norm_num)]
    rfl
  exact ⟨hok, partition_nonbinary_always_aux [1, 0, 2] 0 [] [] _
    (by simp) (by simp) hok 2 (by norm_num)
    (by norm_num) (by norm_num)⟩

/- ------------------------------------------------------------------ -/
/- Claim C2                                                           -/
/- ------------------------------------------------------------------ -/

theorem maskSelect_eq_filter_range {α : Type} (P : String → ℚ → Bool) (dflt : α) :
    ∀ (v : List α) (sample : List String) (d : List ℚ),
      sample.length = v.length → d.length = v.length →
      maskSelect (List.zipWith P sample d) v =
        ((List.range v.length).filter
          (fun i => P (sample.getD i "") (d.getD i 0))).map (fun i => v.getD i dflt) := by
  intro v
  induction v with
  | nil => intro sample d _ _; simp [maskSelect]
  | cons a v' ih =>
    intro sample d hs hd
    cases sample with
    | nil => simp at hs
    | cons s s' =>
      cases d with
      | nil => simp at hd
      | cons t d' =>
        have hs' : s'.length = v'.length := by simpa using hs
        have hd' : d'.length = v'.length := by simpa using hd
        have hL : maskSelect (List.zipWith P (s :: s') (t :: d')) (a :: v') =
            (if P s t then a :: maskSelect (List.zipWith P s' d') v'
             else maskSelect (List.zipWith P s' d') v') := by
          simp only [List.zipWith_cons_cons, maskSelect, List.zip_cons_cons,
            List.filterMap_cons]
          by_cases hP : P s t <;> simp [hP, maskSelect]
        rw [hL, List.length_cons, List.range_succ_eq_map, List.filter_cons]
        have hmap : ((List.range v'.length).map Nat.succ).filter
              (fun i => P ((s :: s').getD i "") ((t :: d').getD i 0)) =
            ((List.range v'.length).filter
              (fun i => P (s'.getD i "") (d'.getD i 0))).map Nat.succ := by
          rw [List.filter_map]
          rfl
        have hg : ((fun i => (a :: v').getD i dflt) ∘ Nat.succ) =
            fun i => v'.getD i dflt := rfl
        cases hP : P s t
        · rw [if_neg (by simp [hP]), if_neg (by simp [hP]), hmap, List.map_map, hg,
            ih s' d' hs' hd']
        · rw [if_pos (by simp [hP]), if_pos (by simp [hP]), List.map_cons, hmap,
            List.map_map, hg, ih s' d' hs' hd']
          rfl

theorem getD_zipWith_sub (l l' : List ℚ) :
    ∀ (i : ℕ), i < l.length → i < l'.length →
      (List.zipWith (· - ·) l l').getD i 0 = l.getD i 0 - l'.getD i 0 := by
  induction l generalizing l' with
  | nil => intro i hi; simp at hi
  | cons a t ih =>
    intro i hi hi'
    cases l' with
    | nil => simp at hi'
    | cons b t' =>
      cases i with
      | zero => rfl
      | succ k =>
        simp only [List.zipWith_cons_cons, List.getD_cons_succ]
        exact ih t' k (by simpa using hi) (by simpa using hi')

theorem zipWith_map_same {α : Type} (f : ℚ → ℚ → ℚ) (g1 g2 : α → ℚ) (l : List α) :
    List.zipWith f (l.map g1) (l.map g2) = l.map (fun a => f (g1 a) (g2 a)) := by
  induction l with
  | nil => rfl
  | cons a t ih => simp [ih]

theorem mem_auxRows (n : ℕ) (sample : List String) (d : List ℚ) (arm : ℚ) (i : ℕ) :
    i ∈ auxRows n sample d arm ↔
      i < n ∧ sample.getD i "" = "a" ∧ d.getD i 0 = arm := by
  simp [auxRows, List.mem_filter, List.mem_range, and_assoc]

/-- Claim C2: `ml_proxy` first fits the model on exactly the rows where the
label is auxiliary and D = 0 with target Y and predicts on all n rows to
obtain b_hat; it then re-fits the same model instance on exactly the rows
where the label is auxiliary and D = 1 with target (Y minus the first-stage
prediction) restricted to those rows, predicts on all n rows to obtain
s_hat, and returns the pair (b_hat, s_hat), each of length n. -/
theorem ml_proxy_matches_spec {S : Type} (M : MLModel S) (s0 : S)
    (x : List (List ℚ)) (y d : List ℚ) (sample : List String)
    (hx : x.length = y.length) (hd : d.length = y.length)
    (hs : sample.length = y.length) :
    ml_proxy M s0 x y d sample = ml_proxy_spec M s0 x y d sample ∧
    (ml_proxy M s0 x y d sample).1.1.length = y.length ∧
    (ml_proxy M s0 x y d sample).1.2.length = y.length := by
  have hsx : sample.length = x.length := by rw [hs, hx]
  have hdx : d.length = x.length := by rw [hd, hx]
  have hbridgeX : ∀ (P : String → ℚ → Bool),
      maskSelect (List.zipWith P sample d) x =
        ((List.range y.length).filter
          (fun i => P (sample.getD i "") (d.getD i 0))).map (fun i => x.getD i []) := by
    intro P
    rw [maskSelect_eq_filter_range P [] x sample d hsx hdx, hx]
  have hbridgeY : ∀ (P : String → ℚ → Bool),
      maskSelect (List.zipWith P sample d) y =
        ((List.range y.length).filter
          (fun i => P (sample.getD i "") (d.getD i 0))).map (fun i => y.getD i 0) :=
    fun P => maskSelect_eq_filter_range P 0 y sample d hs hd
  constructor
  · simp only [ml_proxy, ml_proxy_spec, auxRows]
    rw [hbridgeX, hbridgeY, hbridgeX, hbridgeY]
    have hpredlen : (npPredict M (M.fit s0
        (((List.range y.length).filter (fun i =>
            sample.getD i "" == "a" && d.getD i 0 == 0)).map (fun i => x.getD i []))
        (((List.range y.length).filter (fun i =>
            sample.getD i "" == "a" && d.getD i 0 == 0)).map (fun i => y.getD i 0))) x).length
        = y.length := by
      simp [npPredict, hx]
    set pred := npPredict M (M.fit s0
        (((List.range y.length).filter (fun i =>
            sample.getD i "" == "a" && d.getD i 0 == 0)).map (fun i => x.getD i []))
        (((List.range y.length).filter (fun i =>
            sample.getD i "" == "a" && d.getD i 0 == 0)).map (fun i => y.getD i 0))) x
      with hpred
    have htarget :
        maskSelect (List.zipWith (fun l di => l == "a" && di == 1) sample d) pred =
          ((List.range y.length).filter (fun i =>
            sample.getD i "" == "a" && d.getD i 0 == 1)).map (fun i => pred.getD i 0) := by
      rw [maskSelect_eq_filter_range (fun l di => l == "a" && di == 1) 0 pred sample d
        (by rw [hs, hpredlen]) (by rw [hd, hpredlen]), hpredlen]
    rw [htarget, zipWith_map_same]
    have hresid : ((List.range y.length).filter (fun i =>
          sample.getD i "" == "a" && d.getD i 0 == 1)).map
            (fun i => y.getD i 0 - pred.getD i 0) =
        ((List.range y.length).filter (fun i =>
          sample.getD i "" == "a" && d.getD i 0 == 1)).map
            (fun i => (List.zipWith (· - ·) y pred).getD i 0) := by
      refine List.map_congr_left ?_
      intro i hi
      have hin : i < y.length := List.mem_range.mp (List.mem_of_mem_filter hi)
      rw [getD_zipWith_sub y pred i hin (by rw [hpredlen]; exact hin)]
    rw [hresid]
  · constructor <;> simp [ml_proxy, npPredict, hx]

/-- Claim C2 witness: the theorem applied to a concrete two-row dataset with
the sum-fitting model. -/
theorem ml_proxy_matches_spec_witness :
    ([[(1:ℚ)], [2]] : List (List ℚ)).length = ([1, 2] : List ℚ).length ∧
    ([1, 0] : List ℚ).length = ([1, 2] : List ℚ).length ∧
    (["a", "a"] : List String).length = ([1, 2] : List ℚ).length ∧
    ml_proxy sumModel 0 [[1], [2]] [1, 2] [1, 0] ["a", "a"] =
      ml_proxy_spec sumModel 0 [[1], [2]] [1, 2] [1, 0] ["a", "a"] :=
  ⟨rfl, rfl, rfl,
    (ml_proxy_matches_spec sumModel 0 [[1], [2]] [1, 2] [1, 0] ["a", "a"]
      rfl rfl rfl).1⟩

/- ------------------------------------------------------------------ -/
/- quantile_grid evaluation lemmas                                    -/
/- ------------------------------------------------------------------ -/

theorem np_linspace_length (start stop : ℚ) (num : ℕ) :
    (np_linspace start stop num).length = num := by
  unfold np_linspace
  rw [List.length_map, List.length_range]

theorem np_percentile_ok (a : List ℚ) (hne : a ≠ []) (p : ℚ) :
    np_percentile a p = .ok (percentileVal a p) := by
  unfold np_percentile
  rw [if_neg (by simp [List.isEmpty_iff, hne])]

theorem npPercentileList_ok (a : List ℚ) (hne : a ≠ []) (ps : List ℚ) :
    npPercentileList a ps = .ok (ps.map (percentileVal a)) := by
  induction ps with
  | nil => rfl
  | cons p ps ih =>
    simp only [npPercentileList, np_percentile_ok a hne, ih, List.map_cons]

theorem quantile_grid_eq_ok (x : List ℚ) (q : ℕ) (hne : x ≠ []) :
    quantile_grid x q = .ok (qgIndices x q, qgEdges x q, np_linspace 0 100 q) := by
  simp only [quantile_grid]
  rw [npPercentileList_ok x hne]
  rfl

theorem quantile_grid_err_of_empty (q : ℕ) (hq : 1 ≤ q) :
    quantile_grid ([] : List ℚ) q =
      .error "cannot do a non-empty take from an empty axes." := by
  have hne : np_linspace 0 100 q ≠ [] := by
    intro hnil
    have hl := np_linspace_length 0 100 q
    rw [hnil] at hl
    simp at hl
    omega
  obtain ⟨p, ps, hcons⟩ := List.exists_cons_of_ne_nil hne
  simp only [quantile_grid]
  rw [hcons]
  rfl

theorem qgEdges_length (x : List ℚ) (q : ℕ) : (qgEdges x q).length = q := by
  unfold qgEdges
  rw [List.length_map, np_linspace_length]

theorem qgIndices_bounds (x : List ℚ) (q : ℕ) (t : ℤ)
    (ht : t ∈ qgIndices x q) : -1 ≤ t ∧ t < (q : ℤ) := by
  unfold qgIndices at ht
  rw [List.mem_map] at ht
  obtain ⟨v, _, rfl⟩ := ht
  have h1 := List.countP_le_length (fun e => decide (e ≤ v)) (l := qgEdges x q)
  have h2 := qgEdges_length x q
  omega

/- ------------------------------------------------------------------ -/
/- Claims C3 and C4                                                   -/
/- ------------------------------------------------------------------ -/

/-- Claim C3, evaluation at the failing input: `blp` builds the claimed design
matrix, but the weight vector 1/(P(1-P)) it computes travels through the
unrecognized keyword `w=` of statsmodels `WLS` (whose weight parameter is
named `weights`), so the solver call carries the default unit weights, which
differ from the claimed weights whenever some P differs from 1/2. -/
theorem blp_weights_ignored :
    (blpCall [1] [1] [1/4] [0] [0]).weightsUsed = [1] ∧
    (blpCall [1] [1] [1/4] [0] [0]).extraKwargs = [("w", [16/3])] ∧
    w_reg_src [1/4] = [16/3] ∧
    ([1] : List ℚ) ≠ [16/3] := by
  have hw : w_reg_src [(1:ℚ)/4] = [16/3] := by
    norm_num [w_reg_src]
  exact ⟨rfl, by rw [show (blpCall [1] [1] [1/4] [0] [0]).extraKwargs =
      [("w", w_reg_src [1/4])] from rfl, hw], hw, by norm_num⟩

/-- Claim C4, evaluation at the failing input: `gates` likewise passes the
1/(P(1-P)) vector via the unrecognized keyword `w=`, so its solver call
carries the default unit weights rather than the claimed weights. -/
theorem gates_weights_ignored :
    ((gatesCall [1, 2, 3] [1, 0, 1] [1/4, 1/4, 1/4] [0, 1, 2] 2 [0, 0, 0]).toOption.map
        (fun r => (r.1.weightsUsed, r.1.extraKwargs))) =
      some ([1, 1, 1], [("w", [16/3, 16/3, 16/3])]) ∧
    w_reg_src [1/4, 1/4, 1/4] = [16/3, 16/3, 16/3] ∧
    ([1, 1, 1] : List ℚ) ≠ [16/3, 16/3, 16/3] := by
  have hw : w_reg_src [(1:ℚ)/4, 1/4, 1/4] = [16/3, 16/3, 16/3] := by
    norm_num [w_reg_src]
  have hx : List.zipWith (fun s ui => s + 1 / 10 ^ 16 * ui)
      [(0:ℚ), 1, 2] [0, 0, 0] = [0, 1, 2] := by
    norm_num
  have hlin : np_linspace 0 100 2 = [0, 50] := by
    norm_num [np_linspace, List.range_succ]
  have h0 : percentileVal [0, 1, 2] 0 = 0 := by
    norm_num [percentileVal, interpSorted, List.insertionSort, List.orderedInsert]
  have h50 : percentileVal [0, 1, 2] 50 = 1 := by
    norm_num [percentileVal, interpSorted, List.insertionSort, List.orderedInsert,
      Int.floor_eq_iff]
  have hedges : qgEdges [0, 1, 2] 2 = [0, 1] := by
    unfold qgEdges
    rw [hlin, List.map_cons, List.map_cons, List.map_nil, h0, h50]
  have hidx : qgIndices [0, 1, 2] 2 = [0, 1, 1] := by
    unfold qgIndices
    rw [hedges]
    norm_num [List.countP_cons, List.countP_nil]
  have hqg : quantile_grid [0, 1, 2] 2 = .ok ([0, 1, 1], [0, 1], [0, 50]) := by
    rw [quantile_grid_eq_ok [0, 1, 2] 2 (by simp), hedges, hidx, hlin]
  have hoh : np_onehot 3 2 [0, 1, 1] =
      .ok [[1, 0], [0, 1], [0, 1]] := by
    norm_num [np_onehot, List.range_succ]
  refine ⟨?_, hw, by norm_num⟩
  show ((gatesCall [1, 2, 3] [1, 0, 1] [1/4, 1/4, 1/4] [0, 1, 2] 2 [0, 0, 0]).toOption.map
      (fun r => (r.1.weightsUsed, r.1.extraKwargs))) = _
  simp only [gatesCall, hx, hqg, gatesBuild]
  rw [show (([0, 1, 2] : List ℚ)).length = 3 from rfl,
    show (([0, 1] : List ℚ)).length = 2 from rfl]
  simp only [hoh]
  rw [hw]
  rfl

/- ------------------------------------------------------------------ -/
/- Claim C8                                                           -/
/- ------------------------------------------------------------------ -/

theorem np_onehot_ok_of_bounds (n q : ℕ) (idx : List ℤ)
    (hb : ∀ t ∈ idx, -(q:ℤ) ≤ t ∧ t < (q:ℤ)) :
    np_onehot n q idx = .ok ((List.range n).map (fun (r : ℕ) =>
      (List.range q).map (fun (c : ℕ) =>
        if (idx.getD r 0) % (q:ℤ) = (c:ℤ) then 1 else 0))) := by
  unfold np_onehot
  rw [if_pos]
  rw [List.all_eq_true]
  intro t ht
  obtain ⟨h1, h2⟩ := hb t ht
  simp [h1, h2]

theorem np_onehot_err_of_zero (n : ℕ) (idx : List ℤ) (hne : idx ≠ []) :
    np_onehot n 0 idx = .error "index out of bounds for axis 1" := by
  unfold np_onehot
  rw [if_neg]
  intro hall
  rw [List.all_eq_true] at hall
  cases idx with
  | nil => exact hne rfl
  | cons a t =>
    have := hall a (List.mem_cons_self a t)
    simp only [Bool.and_eq_true, decide_eq_true_eq] at this
    omega

theorem zipWith_jitter_length (s_hat u : List ℚ)
    (hu : u.length = s_hat.length) :
    (List.zipWith (fun s ui => s + 1 / 10 ^ 16 * ui) s_hat u).length
      = s_hat.length := by
  rw [List.length_zipWith, hu, Nat.min_self]

theorem zipWith_jitter_ne_nil (s_hat u : List ℚ)
    (hs : s_hat ≠ []) (hu : u.length = s_hat.length) :
    List.zipWith (fun s ui => s + 1 / 10 ^ 16 * ui) s_hat u ≠ [] := by
  intro hnil
  have hlen := zipWith_jitter_length s_hat u hu
  rw [hnil] at hlen
  exact hs (List.length_eq_zero.mp hlen.symm)

theorem gatesCall_q1_ok (y d prop s_hat u : List ℚ)
    (hs : s_hat ≠ []) (hu : u.length = s_hat.length) :
    exceptIsOk (gatesCall y d prop s_hat 1 u) = true := by
  have hxne := zipWith_jitter_ne_nil s_hat u hs hu
  simp only [gatesCall]
  rw [quantile_grid_eq_ok _ 1 hxne]
  show exceptIsOk (gatesBuild y d prop s_hat.length
    (qgIndices (List.zipWith (fun s ui => s + 1 / 10 ^ 16 * ui) s_hat u) 1)
    (qgEdges (List.zipWith (fun s ui => s + 1 / 10 ^ 16 * ui) s_hat u) 1)) = true
  simp only [gatesBuild]
  rw [np_onehot_ok_of_bounds s_hat.length
      (qgEdges (List.zipWith (fun s ui => s + 1 / 10 ^ 16 * ui) s_hat u) 1).length
      (qgIndices (List.zipWith (fun s ui => s + 1 / 10 ^ 16 * ui) s_hat u) 1)
      (fun t ht => by
        have hb := qgIndices_bounds
          (List.zipWith (fun s ui => s + 1 / 10 ^ 16 * ui) s_hat u) 1 t ht
        rw [qgEdges_length]
        constructor <;> omega)]
  rfl

/-- Claim C8, counterexample: a direct call of `gates` with q = 1 returns a
result instead of signalling an invalid-argument error. -/
theorem gates_q_one_cex :
    exceptIsOk (gates zeroSolver [1, 2] [1, 0] [1/2, 1/2] [0, 1] 1 [0, 0]) = true := by
  unfold gates
  cases hg : gatesCall [1, 2] [1, 0] [1/2, 1/2] [0, 1] 1 [0, 0] with
  | error e =>
    have hok := gatesCall_q1_ok [1, 2] [1, 0] [1/2, 1/2] [0, 1] [0, 0]
      (by simp) rfl
    rw [hg] at hok
    exact absurd hok (by simp [exceptIsOk])
  | ok r =>
    obtain ⟨c, be, oh⟩ := r
    rfl

/-- Claim C8 (amended): `gates` performs no validation of q and never raises
an invalid-argument error for q ≤ 1: with q = 1 and at least one observation
it returns a (degenerate) single-group result; with q = 1 and no observations
it fails inside np.percentile with an IndexError; and with q = 0 (at least
one observation and a jitter vector of matching length) the one-hot
construction fails with an IndexError instead of an invalid-argument
error. -/
theorem gates_no_q_validation (solver : List (List ℚ) → List ℚ → List ℚ → List ℚ)
    (y d prop s_hat u : List ℚ) :
    (s_hat ≠ [] → u.length = s_hat.length →
      exceptIsOk (gates solver y d prop s_hat 1 u) = true) ∧
    (s_hat = [] →
      gates solver y d prop s_hat 1 u =
        .error "cannot do a non-empty take from an empty axes.") ∧
    (1 ≤ s_hat.length → u.length = s_hat.length →
      gates solver y d prop s_hat 0 u =
        .error "index out of bounds for axis 1") := by
  refine ⟨?_, ?_, ?_⟩
  · intro hs hu
    unfold gates
    cases hg : gatesCall y d prop s_hat 1 u with
    | error e =>
      have hok := gatesCall_q1_ok y d prop s_hat u hs hu
      rw [hg] at hok
      exact absurd hok (by simp [exceptIsOk])
    | ok r =>
      obtain ⟨c, be, oh⟩ := r
      rfl
  · intro hs
    subst hs
    have hgc : gatesCall y d prop ([] : List ℚ) 1 u =
        .error "cannot do a non-empty take from an empty axes." := by
      simp only [gatesCall, List.zipWith_nil_left]
      rw [quantile_grid_err_of_empty 1 le_rfl]
    unfold gates
    rw [hgc]
  · intro hn hu
    have hs : s_hat ≠ [] :=
      List.ne_nil_of_length_pos (by omega)
    have hxne := zipWith_jitter_ne_nil s_hat u hs hu
    have hidx_ne : qgIndices
        (List.zipWith (fun s ui => s + 1 / 10 ^ 16 * ui) s_hat u) 0 ≠ [] := by
      intro hnil
      have hlen : (qgIndices
          (List.zipWith (fun s ui => s + 1 / 10 ^ 16 * ui) s_hat u) 0).length
          = s_hat.length := by
        unfold qgIndices
        rw [List.length_map]
        exact zipWith_jitter_length s_hat u hu
      rw [hnil] at hlen
      simp at hlen
      omega
    have hgc : gatesCall y d prop s_hat 0 u =
        .error "index out of bounds for axis 1" := by
      simp only [gatesCall]
      rw [quantile_grid_eq_ok _ 0 hxne]
      show gatesBuild y d prop s_hat.length
        (qgIndices (List.zipWith (fun s ui => s + 1 / 10 ^ 16 * ui) s_hat u) 0)
        (qgEdges (List.zipWith (fun s ui => s + 1 / 10 ^ 16 * ui) s_hat u) 0) =
        Except.error "index out of bounds for axis 1"
      simp only [gatesBuild]
      rw [show (qgEdges
          (List.zipWith (fun s ui => s + 1 / 10 ^ 16 * ui) s_hat u) 0).length = 0
        from qgEdges_length _ 0]
      rw [np_onehot_err_of_zero _ _ hidx_ne]
    unfold gates
    rw [hgc]

/-- Claim C8 witness: the amended theorem applied to a concrete one-row
input. -/
theorem gates_no_q_validation_witness :
    (([7] : List ℚ) ≠ [] ∧ ([0] : List ℚ).length = ([7] : List ℚ).length ∧
      exceptIsOk (gates zeroSolver [3] [1] [1/2] [7] 1 [0]) = true) ∧
    gates zeroSolver [3] [1] [1/2] ([] : List ℚ) 1 [] =
      .error "cannot do a non-empty take from an empty axes." ∧
    (1 ≤ ([7] : List ℚ).length ∧
      gates zeroSolver [3] [1] [1/2] [7] 0 [0] =
        .error "index out of bounds for axis 1") :=
  ⟨⟨by simp, rfl,
    (gates_no_q_validation zeroSolver [3] [1] [1/2] [7] [0]).1 (by simp) rfl⟩,
   (gates_no_q_validation zeroSolver [3] [1] [1/2] [] []).2.1 rfl,
   by norm_num,
   (gates_no_q_validation zeroSolver [3] [1] [1/2] [7] [0]).2.2 (by norm_num) rfl⟩

/- ------------------------------------------------------------------ -/
/- Claim C7                                                           -/
/- ------------------------------------------------------------------ -/

/-- Claim C7, counterexample: with an invalid second_stage and a model whose
state counts fit calls, `combine` does raise the ValueError, but the model
state it returns is 2, not the initial 0: the partitioning and both proxy
fits happen before the error is raised. -/
theorem combine_invalid_stage_cex :
    combine countModel 0 zeroSolver [[1], [2]] [1, 2] [1, 0] [1/2, 1/2]
        "foo" 10 0 [] [] [] =
      (Except.error "Argument second_stage must be \"blp\" or \"gates\"", 2) ∧
    (combine countModel 0 zeroSolver [[1], [2]] [1, 2] [1, 0] [1/2, 1/2]
        "foo" 10 0 [] [] []).2 ≠ 0 := by
  have h : combine countModel 0 zeroSolver [[1], [2]] [1, 2] [1, 0] [1/2, 1/2]
      "foo" 10 0 [] [] [] =
      (Except.error "Argument second_stage must be \"blp\" or \"gates\"", 2) := by
    unfold combine
    rw [partition_ok [1, 0] 0 [] [] (by simp) (by simp) le_rfl (by norm_num)]
    rfl
  exact ⟨h, by rw [h]; simp⟩

/-- Claim C7 (amended): `combine` with a second_stage outside blp/gates
raises the ValueError, but only after performing the partitioning and both
proxy-model fits: the model state it returns is the state produced by
`ml_proxy`, not the initial state. -/
theorem combine_invalid_stage_after_fit {S : Type} (M : MLModel S) (s0 : S)
    (solver : List (List ℚ) → List ℚ → List ℚ → List ℚ)
    (x : List (List ℚ)) (y d prop : List ℚ) (st : String) (q : ℕ)
    (prob_m : ℚ) (cT cC : List ℕ) (u : List ℚ)
    (hst1 : st ≠ "blp") (hst2 : st ≠ "gates")
    (h1 : (1:ℚ) ∈ d) (h0 : (0:ℚ) ∈ d) (hp0 : 0 ≤ prob_m) (hp1 : prob_m ≤ 1) :
    combine M s0 solver x y d prop st q prob_m cT cC u =
      (Except.error "Argument second_stage must be \"blp\" or \"gates\"",
       (ml_proxy M s0 x y d
         (npAssign (List.replicate d.length "a") (cT ++ cC) "m")).2) := by
  unfold combine
  split
  · rename_i e heq
    rw [partition_ok d prob_m cT cC h1 h0 hp0 hp1] at heq
    cases heq
  · rename_i sample heq
    rw [partition_ok d prob_m cT cC h1 h0 hp0 hp1] at heq
    injection heq with hs
    subst hs
    rcases ml_proxy M s0 x y d
        (npAssign (List.replicate d.length "a") (cT ++ cC) "m") with ⟨⟨b, s⟩, s2⟩
    simp [hst1, hst2]

/-- Claim C7 witness: the amended theorem applied to a concrete input with
second_stage "bar". -/
theorem combine_invalid_stage_after_fit_witness :
    ("bar" ≠ "blp") ∧ ("bar" ≠ "gates") ∧
    combine countModel 0 zeroSolver [[1], [2]] [1, 2] [1, 0] [1/2, 1/2]
        "bar" 10 0 [] [] [] =
      (Except.error "Argument second_stage must be \"blp\" or \"gates\"",
       (ml_proxy countModel 0 [[1], [2]] [1, 2] [1, 0]
         (npAssign (List.replicate ([1, 0] : List ℚ).length "a") ([] ++ []) "m")).2) :=
  ⟨by decide, by decide,
    combine_invalid_stage_after_fit countModel 0 zeroSolver [[1], [2]] [1, 2]
      [1, 0] [1/2, 1/2] "bar" 10 0 [] [] [] (by decide) (by decide)
      (by simp) (by simp) le_rfl (by norm_num)⟩

/- ------------------------------------------------------------------ -/
/- Claim C9                                                           -/
/- ------------------------------------------------------------------ -/

/-- Claim C9, counterexample: with prob_m = 1 and the non-trivial treatment
vector D = [0, 1], `combine` silently returns a result (fitting the proxy
model on empty auxiliary subsets) instead of raising a degenerate-input
error. -/
theorem combine_prob_one_cex :
    combine sumModel 0 zeroSolver [[1], [2]] [1, 2] [0, 1] [1/2, 1/2]
        "blp" 10 1 [1] [0] [] =
      (Except.ok (CombineResult.blpRes (0, 0)), 0) := by
  unfold combine
  rw [partition_ok [0, 1] 1 [1] [0] (by simp) (by simp) (by norm_num) le_rfl]
  rfl

/-- Claim C9 (amended): with prob_m = 1 and a treatment vector containing both
arms, the pipeline performs no degenerate-input validation: `partition`
labels every index main (so the auxiliary sample is empty), and `combine`
with the blp stage returns a result rather than raising; the proxy model is
simply fit on empty training sets. -/
theorem combine_prob_one_no_error {S : Type} (M : MLModel S) (s0 : S)
    (solver : List (List ℚ) → List ℚ → List ℚ → List ℚ)
    (x : List (List ℚ)) (y prop : List ℚ) (d : List ℚ) (q : ℕ)
    (cT cC : List ℕ) (u : List ℚ)
    (hvals : ∀ v ∈ d, v = 0 ∨ v = 1)
    (h1 : (1:ℚ) ∈ d) (h0 : (0:ℚ) ∈ d)
    (hcT : valid_choice (whereEq d 1) ⌊(1:ℚ) * ((whereEq d 1).length : ℚ)⌋ cT)
    (hcC : valid_choice (whereEq d 0) ⌊(1:ℚ) * ((whereEq d 0).length : ℚ)⌋ cC) :
    partition d 1 cT cC = .ok (List.replicate d.length "m") ∧
    exceptIsOk (combine M s0 solver x y d prop "blp" q 1 cT cC u).1 = true := by
  have hfloorT : (⌊(1:ℚ) * ((whereEq d 1).length : ℚ)⌋ : ℤ) = (whereEq d 1).length := by
    rw [one_mul, Int.floor_natCast]
  have hfloorC : (⌊(1:ℚ) * ((whereEq d 0).length : ℚ)⌋ : ℤ) = (whereEq d 0).length := by
    rw [one_mul, Int.floor_natCast]
  have hTnd : (whereEq d 1).Nodup := List.Nodup.filter _ (List.nodup_range _)
  have hCnd : (whereEq d 0).Nodup := List.Nodup.filter _ (List.nodup_range _)
  have hcovT : ∀ i ∈ whereEq d 1, i ∈ cT :=
    choice_covers cT (whereEq d 1) hcT.2.1 hTnd hcT.2.2 (by
      have := hcT.1
      omega)
  have hcovC : ∀ i ∈ whereEq d 0, i ∈ cC :=
    choice_covers cC (whereEq d 0) hcC.2.1 hCnd hcC.2.2 (by
      have := hcC.1
      omega)
  have hmem : ∀ i < d.length, i ∈ cT ++ cC := by
    intro i hi
    have hvd := hvals (d.getD i 0) (getD_mem d 0 i hi)
    rcases hvd with hv | hv
    · exact List.mem_append_right _ (hcovC i ((mem_whereEq d 0 i).mpr ⟨hi, hv⟩))
    · exact List.mem_append_left _ (hcovT i ((mem_whereEq d 1 i).mpr ⟨hi, hv⟩))
  have hassign : npAssign (List.replicate d.length "a") (cT ++ cC) "m" =
      List.replicate d.length "m" := by
    refine List.ext_get ?_ ?_
    · rw [npAssign_length, List.length_replicate, List.length_replicate]
    · intro i hlt1 hlt2
      have hi : i < d.length := by
        rwa [npAssign_length, List.length_replicate] at hlt1
      rw [← getD_eq_get _ "" i hlt1, ← getD_eq_get _ "" i hlt2,
        npAssign_getD, List.length_replicate, if_pos ⟨hmem i hi, hi⟩,
        getD_replicate _ _ _ _ hi]
  have hpart : partition d 1 cT cC = .ok (List.replicate d.length "m") := by
    rw [partition_ok d 1 cT cC h1 h0 (by norm_num) le_rfl, hassign]
  refine ⟨hpart, ?_⟩
  unfold combine
  split
  · rename_i e heq
    rw [hpart] at heq
    cases heq
  · rename_i sample heq
    rw [hpart] at heq
    injection heq with hs
    subst hs
    rcases ml_proxy M s0 x y d (List.replicate d.length "m") with ⟨⟨b, s⟩, s2⟩
    simp [exceptIsOk]

/-- Claim C9 witness: the amended theorem applied to D = [1, 0] with the
full draws cT = [0], cC = [1]. -/
theorem combine_prob_one_no_error_witness :
    valid_choice (whereEq [1, 0] 1) ⌊(1:ℚ) * ((whereEq [1, 0] 1).length : ℚ)⌋ [0] ∧
    valid_choice (whereEq [1, 0] 0) ⌊(1:ℚ) * ((whereEq [1, 0] 0).length : ℚ)⌋ [1] ∧
    (partition [1, 0] 1 [0] [1] = .ok (List.replicate ([1, 0] : List ℚ).length "m") ∧
     exceptIsOk (combine countModel 0 zeroSolver [[1], [2]] [1, 2] [1, 0]
       [1/2, 1/2] "blp" 10 1 [0] [1] []).1 = true) := by
  have hwT : whereEq [1, 0] 1 = [0] := by simp [whereEq, List.range_succ]
  have hwC : whereEq [1, 0] 0 = [1] := by simp [whereEq, List.range_succ]
  have hvT : valid_choice (whereEq [1, 0] 1)
      ⌊(1:ℚ) * ((whereEq [1, 0] 1).length : ℚ)⌋ [0] := by
    rw [hwT]
    exact ⟨by norm_num, by simp, by simp⟩
  have hvC : valid_choice (whereEq [1, 0] 0)
      ⌊(1:ℚ) * ((whereEq [1, 0] 0).length : ℚ)⌋ [1] := by
    rw [hwC]
    exact ⟨by norm_num, by simp, by simp⟩
  exact ⟨hvT, hvC,
    combine_prob_one_no_error countModel 0 zeroSolver [[1], [2]] [1, 2]
      [1/2, 1/2] [1, 0] 10 [0] [1] [] (by norm_num) (by simp) (by simp) hvT hvC⟩

/- ------------------------------------------------------------------ -/
/- Claims C5 and C6: percentile interpolation theory                  -/
/- ------------------------------------------------------------------ -/
theorem percentileVal_def (a : List ℚ) (p : ℚ) :
    percentileVal a p =
      interpSorted (List.insertionSort (· ≤ ·) a) a.length
        (p / 100 * ((a.length : ℚ) - 1)) := rfl


theorem interpSorted_mono (s : List ℚ) (n : ℕ) (hlen : s.length = n)
    (hs : List.Sorted (· ≤ ·) s) (hn : 1 ≤ n) (h h' : ℚ)
    (h0 : 0 ≤ h) (hhh : h ≤ h') (hup : h' ≤ (n : ℚ) - 1) :
    interpSorted s n h ≤ interpSorted s n h' := by
  have ha0 : (0:ℤ) ≤ ⌊h⌋ := Int.floor_nonneg.mpr h0
  have hab : ⌊h⌋ ≤ ⌊h'⌋ := Int.floor_le_floor hhh
  have hfcast : ⌊((n:ℚ) - 1)⌋ = (n:ℤ) - 1 := by
    rw [show ((n:ℚ) - 1) = (((n:ℤ) - 1 : ℤ) : ℚ) by push_cast; ring, Int.floor_intCast]
  have hbup : ⌊h'⌋ ≤ (n:ℤ) - 1 := le_of_le_of_eq (Int.floor_le_floor hup) hfcast
  have hg0 : 0 ≤ h - (⌊h⌋:ℚ) := by linarith [Int.floor_le h]
  have hg1 : h - (⌊h⌋:ℚ) < 1 := by linarith [Int.lt_floor_add_one h]
  have hg0' : 0 ≤ h' - (⌊h'⌋:ℚ) := by linarith [Int.floor_le h']
  unfold interpSorted
  by_cases hcase : ⌊h⌋ = ⌊h'⌋
  · rw [hcase]
    have hgg : h - ((⌊h'⌋:ℤ):ℚ) ≤ h' - ((⌊h'⌋:ℤ):ℚ) := by linarith
    have hlohi : s.getD (⌊h'⌋).toNat 0 ≤
        s.getD (min ((⌊h'⌋).toNat + 1) (n-1)) 0 :=
      sorted_getD_le hs (le_min (by omega) (by omega)) (by omega) 0
    have := mul_le_mul_of_nonneg_right hgg (sub_nonneg.mpr hlohi)
    linarith
  · have hlt : ⌊h⌋ < ⌊h'⌋ := lt_of_le_of_ne hab hcase
    have h1 : s.getD (⌊h⌋).toNat 0 ≤ s.getD (min ((⌊h⌋).toNat + 1) (n-1)) 0 :=
      sorted_getD_le hs (le_min (by omega) (by omega)) (by omega) 0
    have h2 : s.getD (min ((⌊h⌋).toNat + 1) (n-1)) 0 ≤ s.getD (⌊h'⌋).toNat 0 :=
      sorted_getD_le hs (by omega) (by omega) 0
    have h3 : s.getD (⌊h'⌋).toNat 0 ≤
        s.getD (min ((⌊h'⌋).toNat + 1) (n-1)) 0 :=
      sorted_getD_le hs (le_min (by omega) (by omega)) (by omega) 0
    have e1 : (h - (⌊h⌋:ℚ)) *
        (s.getD (min ((⌊h⌋).toNat + 1) (n-1)) 0 - s.getD (⌊h⌋).toNat 0) ≤
        s.getD (min ((⌊h⌋).toNat + 1) (n-1)) 0 - s.getD (⌊h⌋).toNat 0 :=
      mul_le_of_le_one_left (sub_nonneg.mpr h1) (le_of_lt hg1)
    have e2 : 0 ≤ (h' - (⌊h'⌋:ℚ)) *
        (s.getD (min ((⌊h'⌋).toNat + 1) (n-1)) 0 - s.getD (⌊h'⌋).toNat 0) :=
      mul_nonneg hg0' (sub_nonneg.mpr h3)
    linarith

theorem interpSorted_strict (s : List ℚ) (n : ℕ) (hlen : s.length = n)
    (hs : List.Sorted (· ≤ ·) s) (hnd : s.Nodup) (hn : 2 ≤ n) (h h' : ℚ)
    (h0 : 0 ≤ h) (hhh : h < h') (hup : h' < (n : ℚ) - 1) :
    interpSorted s n h < interpSorted s n h' := by
  have ha0 : (0:ℤ) ≤ ⌊h⌋ := Int.floor_nonneg.mpr h0
  have hab : ⌊h⌋ ≤ ⌊h'⌋ := Int.floor_le_floor (le_of_lt hhh)
  have hbup : ⌊h'⌋ < (n:ℤ) - 1 := by
    rw [Int.floor_lt]
    push_cast
    linarith
  have hg0 : 0 ≤ h - (⌊h⌋:ℚ) := by linarith [Int.floor_le h]
  have hg1 : h - (⌊h⌋:ℚ) < 1 := by linarith [Int.lt_floor_add_one h]
  have hg0' : 0 ≤ h' - (⌊h'⌋:ℚ) := by linarith [Int.floor_le h']
  have hminj : min ((⌊h⌋).toNat + 1) (n-1) = (⌊h⌋).toNat + 1 :=
    Nat.min_eq_left (by omega)
  have hminj' : min ((⌊h'⌋).toNat + 1) (n-1) = (⌊h'⌋).toNat + 1 :=
    Nat.min_eq_left (by omega)
  unfold interpSorted
  rw [hminj, hminj']
  by_cases hcase : ⌊h⌋ = ⌊h'⌋
  · rw [hcase]
    have hgg : h - ((⌊h'⌋:ℤ):ℚ) < h' - ((⌊h'⌋:ℤ):ℚ) := by linarith
    have hlohi : s.getD (⌊h'⌋).toNat 0 < s.getD ((⌊h'⌋).toNat + 1) 0 :=
      sorted_getD_lt hs hnd (by omega) (by omega) 0
    have := mul_lt_mul_of_pos_right hgg (sub_pos.mpr hlohi)
    linarith
  · have hlt : ⌊h⌋ < ⌊h'⌋ := lt_of_le_of_ne hab hcase
    have hlohi : s.getD (⌊h⌋).toNat 0 < s.getD ((⌊h⌋).toNat + 1) 0 :=
      sorted_getD_lt hs hnd (by omega) (by omega) 0
    have h2 : s.getD ((⌊h⌋).toNat + 1) 0 ≤ s.getD (⌊h'⌋).toNat 0 :=
      sorted_getD_le hs (by omega) (by omega) 0
    have h3 : s.getD (⌊h'⌋).toNat 0 ≤ s.getD ((⌊h'⌋).toNat + 1) 0 :=
      sorted_getD_le hs (by omega) (by omega) 0
    have e1 : s.getD (⌊h⌋).toNat 0 +
        (h - (⌊h⌋:ℚ)) * (s.getD ((⌊h⌋).toNat + 1) 0 - s.getD (⌊h⌋).toNat 0) <
        s.getD ((⌊h⌋).toNat + 1) 0 := by
      nlinarith [mul_pos (by linarith : (0:ℚ) < 1 - (h - (⌊h⌋:ℚ)))
        (sub_pos.mpr hlohi)]
    have e2 : 0 ≤ (h' - (⌊h'⌋:ℚ)) *
        (s.getD ((⌊h'⌋).toNat + 1) 0 - s.getD (⌊h'⌋).toNat 0) :=
      mul_nonneg hg0' (sub_nonneg.mpr h3)
    linarith


theorem percentileVal_mono (a : List ℚ) (hne : a ≠ []) (p p' : ℚ)
    (hp0 : 0 ≤ p) (hpp : p ≤ p') (hp1 : p' ≤ 100) :
    percentileVal a p ≤ percentileVal a p' := by
  have hn : 1 ≤ a.length := List.length_pos.mpr hne
  have hn1 : (0:ℚ) ≤ (a.length : ℚ) - 1 := by
    have : (1:ℚ) ≤ (a.length : ℚ) := by exact_mod_cast hn
    linarith
  rw [percentileVal_def, percentileVal_def]
  refine interpSorted_mono _ _ (List.length_insertionSort _ a)
    (List.sorted_insertionSort _ a) hn _ _ ?_ ?_ ?_
  · exact mul_nonneg (div_nonneg hp0 (by norm_num)) hn1
  · have hdd : p / 100 ≤ p' / 100 := by linarith
    exact mul_le_mul_of_nonneg_right hdd hn1
  · have hdiv : p' / 100 ≤ 1 := by linarith
    calc p' / 100 * ((a.length : ℚ) - 1) ≤ 1 * ((a.length : ℚ) - 1) :=
          mul_le_mul_of_nonneg_right hdiv hn1
      _ = (a.length : ℚ) - 1 := one_mul _

theorem percentileVal_strict (a : List ℚ) (hnd : a.Nodup) (hn2 : 2 ≤ a.length)
    (p p' : ℚ) (hp0 : 0 ≤ p) (hpp : p < p') (hp1 : p' < 100) :
    percentileVal a p < percentileVal a p' := by
  have hn1 : (1:ℚ) ≤ (a.length : ℚ) - 1 := by
    have : (2:ℚ) ≤ (a.length : ℚ) := by exact_mod_cast hn2
    linarith
  have hsnd : (List.insertionSort (· ≤ ·) a).Nodup :=
    ((List.perm_insertionSort (· ≤ ·) a).nodup_iff).mpr hnd
  rw [percentileVal_def, percentileVal_def]
  refine interpSorted_strict _ _ (List.length_insertionSort _ a)
    (List.sorted_insertionSort _ a) hsnd hn2 _ _ ?_ ?_ ?_
  · exact mul_nonneg (div_nonneg hp0 (by norm_num)) (by linarith)
  · have hdd : p / 100 < p' / 100 := by linarith
    exact mul_lt_mul_of_pos_right hdd (by linarith)
  · have hdiv : p' / 100 < 1 := by linarith
    calc p' / 100 * ((a.length : ℚ) - 1) < 1 * ((a.length : ℚ) - 1) :=
          mul_lt_mul_of_pos_right hdiv (by linarith)
      _ = (a.length : ℚ) - 1 := one_mul _

theorem percentileVal_zero_le (a : List ℚ) (v : ℚ) (hv : v ∈ a) :
    percentileVal a 0 ≤ v := by
  have h0 : percentileVal a 0 = (List.insertionSort (· ≤ ·) a).getD 0 0 := by
    rw [percentileVal_def]
    unfold interpSorted
    norm_num
  rw [h0]
  exact sorted_getD_zero_le (List.sorted_insertionSort _ a)
    (((List.perm_insertionSort (· ≤ ·) a).mem_iff).mpr hv) 0

theorem getD_map_of_lt {α β : Type} (f : α → β) (l : List α) (i : ℕ)
    (h : i < l.length) (d : β) (d' : α) :
    (l.map f).getD i d = f (l.getD i d') := by
  induction l generalizing i with
  | nil => simp at h
  | cons a t ih =>
    cases i with
    | zero => rfl
    | succ k => exact ih k (Nat.lt_of_succ_lt_succ h)

theorem np_linspace_getD (q i : ℕ) (hi : i < q) :
    (np_linspace 0 100 q).getD i 0 = (i : ℚ) * (100 / (q : ℚ)) := by
  unfold np_linspace
  rw [getD_map_of_lt _ _ i (by rw [List.length_range]; exact hi) 0 0]
  have hr : (List.range q).getD i 0 = i := by
    rw [getD_eq_get _ _ i (by rw [List.length_range]; exact hi), List.get_range]
  rw [hr]
  ring

theorem qgEdges_getD (x : List ℚ) (q i : ℕ) (hi : i < q) :
    (qgEdges x q).getD i 0 =
      percentileVal x ((i : ℚ) * (100 / (q : ℚ))) := by
  unfold qgEdges
  rw [getD_map_of_lt _ _ i (by rw [np_linspace_length]; exact hi) 0 0,
    np_linspace_getD q i hi]

theorem qgEdges_sorted (x : List ℚ) (hne : x ≠ []) (q : ℕ) :
    List.Sorted (· ≤ ·) (qgEdges x q) := by
  unfold qgEdges List.Sorted np_linspace
  rw [List.pairwise_map, List.pairwise_map]
  refine List.Pairwise.imp_of_mem ?_ (List.pairwise_lt_range q)
  intro i j hi hj hij
  rw [List.mem_range] at hi hj
  have hq1 : 1 ≤ q := by omega
  have hqpos : (0:ℚ) < (q:ℚ) := by exact_mod_cast hq1
  have hij' : (i:ℚ) ≤ (j:ℚ) := by exact_mod_cast le_of_lt hij
  have hjq : (j:ℚ) ≤ (q:ℚ) := by exact_mod_cast le_of_lt hj
  refine percentileVal_mono x hne _ _ ?_ ?_ ?_
  · have : (0:ℚ) ≤ (i:ℚ) * ((100 - 0) / (q:ℚ)) :=
      mul_nonneg (Nat.cast_nonneg i) (by positivity)
    linarith
  · have : (i:ℚ) * ((100 - 0) / (q:ℚ)) ≤ (j:ℚ) * ((100 - 0) / (q:ℚ)) :=
      mul_le_mul_of_nonneg_right hij' (by positivity)
    linarith
  · have h1 : (j:ℚ) * ((100 - 0) / (q:ℚ)) ≤ (q:ℚ) * ((100 - 0) / (q:ℚ)) :=
      mul_le_mul_of_nonneg_right hjq (by positivity)
    have h2 : (q:ℚ) * ((100 - 0) / (q:ℚ)) = 100 := by
      field_simp
    linarith

theorem qgEdges_pairwise_lt (x : List ℚ) (hnd : x.Nodup)
    (hn2 : 2 ≤ x.length) (q : ℕ) :
    List.Pairwise (· < ·) (qgEdges x q) := by
  unfold qgEdges np_linspace
  rw [List.pairwise_map, List.pairwise_map]
  refine List.Pairwise.imp_of_mem ?_ (List.pairwise_lt_range q)
  intro i j hi hj hij
  rw [List.mem_range] at hi hj
  have hq1 : 1 ≤ q := by omega
  have hqpos : (0:ℚ) < (q:ℚ) := by exact_mod_cast hq1
  have hij' : (i:ℚ) < (j:ℚ) := by exact_mod_cast hij
  have hjq : (j:ℚ) ≤ (q:ℚ) - 1 := by
    have : (j:ℚ) + 1 ≤ (q:ℚ) := by exact_mod_cast hj
    linarith
  refine percentileVal_strict x hnd hn2 _ _ ?_ ?_ ?_
  · have : (0:ℚ) ≤ (i:ℚ) * ((100 - 0) / (q:ℚ)) :=
      mul_nonneg (Nat.cast_nonneg i) (by positivity)
    linarith
  · have : (i:ℚ) * ((100 - 0) / (q:ℚ)) < (j:ℚ) * ((100 - 0) / (q:ℚ)) :=
      mul_lt_mul_of_pos_right hij' (by positivity)
    linarith
  · have h1 : (j:ℚ) * ((100 - 0) / (q:ℚ)) ≤ ((q:ℚ) - 1) * ((100 - 0) / (q:ℚ)) :=
      mul_le_mul_of_nonneg_right hjq (by positivity)
    have h2 : ((q:ℚ) - 1) * ((100 - 0) / (q:ℚ)) = 100 - 100 / (q:ℚ) := by
      field_simp
      ring
    have h3 : (0:ℚ) < 100 / (q:ℚ) := by positivity
    linarith

theorem quantile_bin_index_spec (x : List ℚ) (q : ℕ) (hq : 1 ≤ q)
    (i : ℕ) (hi : i < x.length) :
    0 ≤ (qgIndices x q).getD i 0 ∧
    (qgIndices x q).getD i 0 < (q : ℤ) ∧
    (qgEdges x q).getD ((qgIndices x q).getD i 0).toNat 0 ≤ x.getD i 0 ∧
    (∀ j < q, (qgEdges x q).getD j 0 ≤ x.getD i 0 →
      (j : ℤ) ≤ (qgIndices x q).getD i 0) := by
  have hne : x ≠ [] := List.ne_nil_of_length_pos (by omega)
  have hlen : (qgEdges x q).length = q := qgEdges_length x q
  have hsort : List.Sorted (· ≤ ·) (qgEdges x q) := qgEdges_sorted x hne q
  have hidx : (qgIndices x q).getD i 0 =
      ((qgEdges x q).countP (fun e => decide (e ≤ x.getD i 0)) : ℤ) - 1 :=
    getD_map_of_lt _ x i hi 0 0
  have hc1 : 0 < (qgEdges x q).countP (fun e => decide (e ≤ x.getD i 0)) := by
    rw [List.countP_pos_iff]
    refine ⟨(qgEdges x q).getD 0 0, getD_mem _ _ 0 (by omega), ?_⟩
    have he0 : (qgEdges x q).getD 0 0 = percentileVal x 0 := by
      rw [qgEdges_getD x q 0 (by omega)]
      norm_num
    rw [he0]
    exact decide_eq_true (percentileVal_zero_le x _ (getD_mem x 0 i hi))
  have hcq : (qgEdges x q).countP (fun e => decide (e ≤ x.getD i 0)) ≤ q :=
    le_trans (List.countP_le_length _) (le_of_eq hlen)
  refine ⟨by rw [hidx]; omega, by rw [hidx]; omega, ?_, ?_⟩
  · rw [hidx]
    have ht : ((((qgEdges x q).countP
        (fun e => decide (e ≤ x.getD i 0)) : ℤ)) - 1).toNat =
        (qgEdges x q).countP (fun e => decide (e ≤ x.getD i 0)) - 1 := by
      omega
    rw [ht]
    exact countP_sorted_getD_le hsort _ (by omega)
  · intro j hj hle
    rw [hidx]
    have := lt_countP_sorted hsort (x.getD i 0)
      (by omega : j < (qgEdges x q).length) hle
    omega

/- ------------------------------------------------------------------ -/
/- Claim C5                                                           -/
/- ------------------------------------------------------------------ -/

/-- Claim C5, counterexample: the claim fails at two inputs it quantifies
over.  With q = 0 and the score vector [0], `quantile_grid` computes no bin
edges and assigns the observation the index -1, which is not a bin (no
highest bin with edge below the score exists); and with a non-empty set of
probabilities but an empty score vector (here q = 1), the percentile call
raises the numpy IndexError, so no edges or assignment are produced at
all. -/
theorem quantile_grid_q_zero_cex :
    quantile_grid [0] 0 = .ok ([-1], [], []) ∧ ¬ (0 : ℤ) ≤ -1 ∧
    quantile_grid ([] : List ℚ) 1 =
      .error "cannot do a non-empty take from an empty axes." := by
  refine ⟨rfl, by decide, quantile_grid_err_of_empty 1 le_rfl⟩

/-- Claim C5 (amended to non-empty score vectors and q ≥ 1): `quantile_grid`
returns a result whose quantile probabilities are the q equally spaced left
edges of equal-width intervals of [0,100), whose q bin edges are the score
percentiles at those probabilities, and which assigns each observation the
highest bin whose edge is less than or equal to its score, the final bin
being unbounded above (every assigned index stays below q no matter how
large the score is). -/
theorem quantile_grid_spec (x : List ℚ) (q : ℕ) (hq : 1 ≤ q) (hne : x ≠ []) :
    ∃ bi be bp, quantile_grid x q = .ok (bi, be, bp) ∧
      bp = spec_bin_pct q ∧
      be = bp.map (percentileVal x) ∧
      ∀ i < x.length,
        0 ≤ bi.getD i 0 ∧
        bi.getD i 0 < (q : ℤ) ∧
        be.getD (bi.getD i 0).toNat 0 ≤ x.getD i 0 ∧
        (∀ j < q, be.getD j 0 ≤ x.getD i 0 → (j : ℤ) ≤ bi.getD i 0) := by
  have hpct : np_linspace 0 100 q = spec_bin_pct q := by
    unfold np_linspace spec_bin_pct
    refine List.map_congr_left ?_
    intro i _
    ring
  refine ⟨qgIndices x q, qgEdges x q, np_linspace 0 100 q,
    quantile_grid_eq_ok x q hne, hpct, ?_,
    fun i hi => quantile_bin_index_spec x q hq i hi⟩
  show qgEdges x q = (np_linspace 0 100 q).map (percentileVal x)
  rfl

/-- Claim C5 witness: the amended theorem applied to the score vector
[0, 1, 2] and q = 2. -/
theorem quantile_grid_spec_witness :
    1 ≤ 2 ∧ ([0, 1, 2] : List ℚ) ≠ [] ∧
    (∃ bi be bp, quantile_grid [0, 1, 2] 2 = .ok (bi, be, bp) ∧
      bp = spec_bin_pct 2 ∧
      be = bp.map (percentileVal [0, 1, 2]) ∧
      ∀ i < ([0, 1, 2] : List ℚ).length,
        0 ≤ bi.getD i 0 ∧
        bi.getD i 0 < (2 : ℤ) ∧
        be.getD (bi.getD i 0).toNat 0 ≤ ([0, 1, 2] : List ℚ).getD i 0 ∧
        (∀ j < 2, be.getD j 0 ≤ ([0, 1, 2] : List ℚ).getD i 0 →
          (j : ℤ) ≤ bi.getD i 0)) :=
  ⟨by decide, by simp, quantile_grid_spec [0, 1, 2] 2 (by decide) (by simp)⟩

/- ------------------------------------------------------------------ -/
/- Claim C6                                                           -/
/- ------------------------------------------------------------------ -/

/-- Claim C6, counterexample: the one-element score vector [0] is non-empty
and has no exact ties, yet with q = 2 both bin edges equal the single score
value, so the edges are not strictly increasing. -/
theorem quantile_grid_single_cex :
    quantile_grid [0] 2 = .ok ([1], [0, 0], [0, 50]) ∧
    ¬ List.Pairwise (· < ·) ([0, 0] : List ℚ) := by
  constructor
  · have h1 : percentileVal [0] 0 = 0 := by
      norm_num [percentileVal, interpSorted, List.insertionSort, List.orderedInsert]
    have h2 : percentileVal [0] 50 = 0 := by
      norm_num [percentileVal, interpSorted, List.insertionSort, List.orderedInsert]
    have hlin : np_linspace 0 100 2 = [0, 50] := by
      norm_num [np_linspace, List.range_succ]
    have hedges : qgEdges [0] 2 = [0, 0] := by
      unfold qgEdges
      rw [hlin, List.map_cons, List.map_cons, List.map_nil, h1, h2]
    have hidx : qgIndices [0] 2 = [1] := by
      unfold qgIndices
      rw [hedges]
      norm_num [List.countP_cons, List.countP_nil]
    rw [quantile_grid_eq_ok [0] 2 (by simp), hedges, hidx, hlin]
  · intro hp
    have h00 := List.rel_of_pairwise_cons hp (List.mem_cons_self 0 [])
    exact absurd h00 (lt_irrefl 0)

/-- Claim C6 (amended to score vectors of at least two elements): for every
score vector with at least two elements and no exact ties and every q ≥ 2,
`quantile_grid` returns a result whose bin edges are strictly increasing and
whose bin index for every observation lies in [0, q). -/
theorem quantile_grid_strict_sorted (x : List ℚ) (q : ℕ) (hnd : x.Nodup)
    (hn2 : 2 ≤ x.length) (hq : 2 ≤ q) :
    ∃ bi be bp, quantile_grid x q = .ok (bi, be, bp) ∧
      List.Pairwise (· < ·) be ∧
      ∀ i < x.length, 0 ≤ bi.getD i 0 ∧ bi.getD i 0 < (q : ℤ) := by
  have hne : x ≠ [] := List.ne_nil_of_length_pos (by omega)
  refine ⟨qgIndices x q, qgEdges x q, np_linspace 0 100 q,
    quantile_grid_eq_ok x q hne, qgEdges_pairwise_lt x hnd hn2 q, ?_⟩
  intro i hi
  have h := quantile_bin_index_spec x q (by omega) i hi
  exact ⟨h.1, h.2.1⟩

/-- Claim C6 witness: the amended theorem applied to the tie-free score
vector [5, 1, 3] and q = 2. -/
theorem quantile_grid_strict_sorted_witness :
    ([5, 1, 3] : List ℚ).Nodup ∧ 2 ≤ ([5, 1, 3] : List ℚ).length ∧ 2 ≤ 2 ∧
    (∃ bi be bp, quantile_grid [5, 1, 3] 2 = .ok (bi, be, bp) ∧
      List.Pairwise (· < ·) be ∧
      ∀ i < ([5, 1, 3] : List ℚ).length,
        0 ≤ bi.getD i 0 ∧ bi.getD i 0 < (2 : ℤ)) :=
  ⟨by decide, by decide, by decide,
    quantile_grid_strict_sorted [5, 1, 3] 2 (by decide) (by decide) (by decide)⟩
